import Mathlib

/-!
Verification of the LoStack-Depot docker-compose migration script
(src/rewrite.py) against its natural-language specification.

Lines of a file are modelled as lists of characters.  The Python string
operations used by the script (lstrip, strip, startswith, substring
containment, replace, split) are translated below, and the per-line
if/elif rewrite chain of process_file is embedded as rewriteLine.
-/

namespace Depot

abbrev Line := List Char

/-- ASCII whitespace stripped by Python str.strip / str.lstrip. -/
def isSpaceChar (c : Char) : Bool :=
  c = ' ' || c = '\t' || c = '\n' || c = '\r' || c = '\x0b' || c = '\x0c'

/-- If pat is a leading segment of l, return the rest of l. -/
def matchStep : Line → Line → Option Line
  | l, [] => some l
  | [], _ :: _ => none
  | c :: cs, p :: ps => if c = p then matchStep cs ps else none

/-- Python l.startswith(pat). -/
def startsWith (l pat : Line) : Bool := (matchStep l pat).isSome

/-- Python substring test: pat in l. -/
def containsSub (l pat : Line) : Bool :=
  match l with
  | [] => startsWith [] pat
  | c :: cs => startsWith (c :: cs) pat || containsSub cs pat

/-- Python l.lstrip(). -/
def lstrip : Line → Line
  | [] => []
  | c :: cs => if isSpaceChar c then lstrip cs else c :: cs

/-- Python l.rstrip(). -/
def rstrip (l : Line) : Line := (lstrip l.reverse).reverse

/-- Python l.strip(). -/
def strip (l : Line) : Line := rstrip (lstrip l)

/-- Fuelled left-to-right non-overlapping replacement; fuel bounds the
number of scanning steps (one step consumes at least one character of l
whenever pat is nonempty, so fuel = l.length suffices). -/
def replaceFuel (pat rep : Line) : Nat → Line → Line
  | 0, l => l
  | _ + 1, [] => []
  | f + 1, c :: cs =>
    match matchStep (c :: cs) pat with
    | some rest => rep ++ replaceFuel pat rep f rest
    | none => c :: replaceFuel pat rep f cs

/-- Python l.replace(pat, rep) for a nonempty pat. -/
def replaceAll (pat rep l : Line) : Line := replaceFuel pat rep l.length l

/-- Python l.split("="): split on every occurrence of the equals sign. -/
def splitOnEq : Line → List Line
  | [] => [[]]
  | c :: cs =>
    if c = '=' then [] :: splitOnEq cs
    else
      match splitOnEq cs with
      | [] => [[c]]
      | s :: rest => (c :: s) :: rest

/-- The leading-whitespace slice computed by the script:
line[:len(line) - len(line.lstrip())]. -/
def indentOf (l : Line) : Line := l.take (l.length - (lstrip l).length)

/- The literal patterns and replacement texts of the nine-branch chain. -/

def patRule : Line := ".rule=Host(`".toList
def patHash : Line := "#".toList
def patTraefikEnable : Line := "traefik.enable=true".toList
def repTraefikEnable : Line := "lostack.enable=true".toList
def patSablierEnable : Line := "sablier.enable=true".toList
def repSablierEnable : Line := "lostack.enable_sablier=true".toList
def patSablierGroup : Line := "sablier.group".toList
def repSablierGroup : Line := "lostack.group".toList
def patServerPort : Line := "server.port".toList
def patDuration : Line := "lostack.duration".toList
def repDuration : Line := "lostack.default_duration".toList
def patEnableSablier : Line := "lostack.enable_sablier".toList
def repAutostart : Line := "lostack.autostart".toList
def patLostackPort : Line := "lostack.port".toList
def portLabel : Line := "- lostack.port=".toList
def patQuote : Line := "\"".toList

/-- The per-line if/elif chain of process_file.  Returns none when the
branch raises (line.split("=")[1] with no equals sign in the line);
otherwise returns the output line and whether modified_lines was
incremented. -/
def rewriteLine (line : Line) : Option (Line × Bool) :=
  if containsSub line patRule && !(startsWith (strip line) patHash) then
    some (indentOf line ++ ('#' :: ' ' :: lstrip line), true)
  else if containsSub line patTraefikEnable then
    some (replaceAll patTraefikEnable repTraefikEnable line, true)
  else if containsSub line patSablierEnable then
    some (replaceAll patSablierEnable repSablierEnable line, true)
  else if containsSub line patSablierGroup then
    some (replaceAll patSablierGroup repSablierGroup line, true)
  else if containsSub line patServerPort then
    match (splitOnEq line)[1]? with
    | none => none
    | some v => some (indentOf line ++ portLabel ++ strip v ++ ['\n'], true)
  else if containsSub line patDuration then
    some (replaceAll patDuration repDuration line, true)
  else if containsSub line patEnableSablier then
    some (replaceAll patEnableSablier repAutostart line, true)
  else if containsSub line patLostackPort then
    match (splitOnEq line)[1]? with
    | none => none
    | some v =>
      some (indentOf line ++ portLabel ++ replaceAll patQuote [] (strip v) ++ ['\n'], true)
  else
    some (line, false)

/-- The loop of process_file over the lines read from the file: the new
line list and the final modified_lines counter, or none when any line
raises. -/
def processLines : List Line → Option (List Line × Nat)
  | [] => some ([], 0)
  | l :: rest =>
    match rewriteLine l with
    | none => none
    | some (l', fired) =>
      match processLines rest with
      | none => none
      | some (out, n) => some (l' :: out, (if fired then 1 else 0) + n)

/-- Observable outcome of process_file on one file: the on-disk content
after the call, whether the file was rewritten, and the returned value
(-1 on a caught exception). -/
structure FileResult where
  content : List Line
  written : Bool
  ret : Int
deriving DecidableEq

/-- process_file: rewrite the lines; write back only when
modified_lines > 0; on an exception report -1 and leave the file alone. -/
def process_file (ls : List Line) : FileResult :=
  match processLines ls with
  | none => ⟨ls, false, -1⟩
  | some (out, n) => if 0 < n then ⟨out, true, (n : Int)⟩ else ⟨ls, false, 0⟩

/-- Number of positions at which the output line differs from the
corresponding input line. -/
def diffCount : List Line → List Line → Nat
  | [], _ => 0
  | _, [] => 0
  | a :: as, b :: bs => (if a = b then 0 else 1) + diffCount as bs

/-- Number of lines on which some rule of the chain fires. -/
def firedCount (ls : List Line) : Nat :=
  ls.foldr
    (fun l acc =>
      match rewriteLine l with
      | some (_, true) => 1 + acc
      | _ => acc) 0

/-- Abstract state of the filesystem seen by main: whether the packages
root exists and is a directory, and the discovered files, each with its
line content and the result of the os.access read/write check. -/
structure FS where
  packagesExists : Bool
  packagesIsDir : Bool
  files : List (List Line × Bool)
deriving DecidableEq

/-- Observable outcome of main: sys.exit with a nonzero code, or a normal
exit after the summary (files found, files modified, total lines). -/
inductive RunResult where
  | fatal : Nat → RunResult
  | ok : Nat → Nat → Nat → RunResult
deriving DecidableEq

/-- One iteration of the per-file loop in main: skip inaccessible files,
skip files whose processing returned -1, and otherwise accumulate the
counters. -/
def stepFile (acc : Nat × Nat) (f : List Line × Bool) : Nat × Nat :=
  if f.2 = false then acc
  else
    let r := process_file f.1
    if r.ret = -1 then acc
    else if 0 < r.ret then (acc.1 + 1, acc.2 + r.ret.toNat)
    else acc

/-- The main routine: fatal exit when the packages root is missing or not
a directory, otherwise the sequential per-file loop and the summary. -/
def runMain (fs : FS) : RunResult :=
  if fs.packagesExists = false then RunResult.fatal 1
  else if fs.packagesIsDir = false then RunResult.fatal 1
  else
    let fm := fs.files.foldl stepFile (0, 0)
    RunResult.ok fs.files.length fm.1 fm.2

/-- Contribution of a single file to (files modified, total lines
changed): zero for inaccessible files, zero for files whose processing
raised, and (1, count) exactly when the count is positive. -/
def contrib (f : List Line × Bool) : Nat × Nat :=
  if f.2 = false then (0, 0)
  else
    match processLines f.1 with
    | none => (0, 0)
    | some (_, n) => if 0 < n then (1, n) else (0, 0)

/-- Modelled from the spec: the reading of rule 5 in the specification,
which takes as the value the ENTIRE text after the first equals sign
(split on the first occurrence only).  This definition follows the words
of the spec and of claim C2; the source instead takes element 1 of a
split on every equals sign.  It exists only to be compared against the
behaviour of rewriteLine. -/
def specValueAfterFirstEq : Line → Option Line
  | [] => none
  | c :: cs => if c = '=' then some cs else specValueAfterFirstEq cs

/- Basic lemmas about the string operations. -/

theorem matchStep_append {a pat r b : Line} (h : matchStep a pat = some r) :
    matchStep (a ++ b) pat = some (r ++ b) := by
  induction pat generalizing a r with
  | nil => simp [matchStep] at h; subst h; simp [matchStep]
  | cons p ps ih =>
    cases a with
    | nil => simp [matchStep] at h
    | cons c cs =>
      simp only [matchStep] at h
      by_cases hcp : c = p
      · subst hcp
        simp only [if_pos rfl] at h
        simpa [matchStep] using ih h
      · simp [if_neg hcp] at h

theorem startsWith_append {a pat b : Line} (h : startsWith a pat = true) :
    startsWith (a ++ b) pat = true := by
  unfold startsWith at *
  cases hm : matchStep a pat with
  | none => simp [hm] at h
  | some r => simp [matchStep_append hm]

theorem containsSub_append_right {a pat : Line} (b : Line)
    (h : containsSub a pat = true) : containsSub (a ++ b) pat = true := by
  induction a with
  | nil =>
    cases pat with
    | nil => cases b <;> simp [containsSub, startsWith, matchStep]
    | cons p ps => simp [containsSub, startsWith, matchStep] at h
  | cons c cs ih =>
    simp only [containsSub, Bool.or_eq_true] at h ⊢
    rcases h with h | h
    · exact Or.inl (startsWith_append h)
    · exact Or.inr (ih h)

theorem containsSub_append_left {b pat : Line} (a : Line)
    (h : containsSub b pat = true) : containsSub (a ++ b) pat = true := by
  induction a with
  | nil => simpa using h
  | cons c cs ih =>
    simp only [List.cons_append, containsSub, Bool.or_eq_true]
    exact Or.inr ih

/-- replaceAll emits the replacement text whenever the pattern occurs. -/
theorem replaceFuel_emits {pat rep : Line} (hp : pat ≠ []) :
    ∀ f l, l.length ≤ f → containsSub l pat = true →
      ∃ x y, replaceFuel pat rep f l = x ++ rep ++ y := by
  intro f
  induction f with
  | zero =>
    intro l hl hc
    interval_cases hlen : l.length
    · cases pat with
      | nil => exact absurd rfl hp
      | cons p ps =>
        rw [List.length_eq_zero] at hlen; subst hlen
        simp [containsSub, startsWith, matchStep] at hc
  | succ f ih =>
    intro l hl hc
    cases l with
    | nil =>
      cases pat with
      | nil => exact absurd rfl hp
      | cons p ps => simp [containsSub, startsWith, matchStep] at hc
    | cons c cs =>
      simp only [replaceFuel]
      cases hm : matchStep (c :: cs) pat with
      | some rest =>
        exact ⟨[], replaceFuel pat rep f rest, by simp⟩
      | none =>
        simp only [containsSub, startsWith, hm, Option.isSome_none,
          Bool.false_or] at hc
        have hlen : cs.length ≤ f := by
          simpa [Nat.succ_le_succ_iff] using hl
        obtain ⟨x, y, hxy⟩ := ih cs hlen hc
        exact ⟨c :: x, y, by simp [hxy]⟩

theorem replaceAll_emits {pat rep l : Line} (hp : pat ≠ [])
    (hc : containsSub l pat = true) :
    ∃ x y, replaceAll pat rep l = x ++ rep ++ y :=
  replaceFuel_emits hp l.length l le_rfl hc

/- Lemmas about whitespace, lstrip and indentOf. -/

theorem lstrip_length_le (l : Line) : (lstrip l).length ≤ l.length := by
  induction l with
  | nil => simp [lstrip]
  | cons c cs ih =>
    by_cases h : isSpaceChar c = true
    · simp only [lstrip, if_pos h]; exact Nat.le_succ_of_le ih
    · simp [lstrip, h]

theorem lstrip_cons_ws {c : Char} (cs : Line) (h : isSpaceChar c = true) :
    lstrip (c :: cs) = lstrip cs := by simp [lstrip, h]

theorem lstrip_cons_not_ws {c : Char} (cs : Line) (h : isSpaceChar c = false) :
    lstrip (c :: cs) = c :: cs := by simp [lstrip, h]

theorem indentOf_cons_ws {c : Char} (cs : Line) (h : isSpaceChar c = true) :
    indentOf (c :: cs) = c :: indentOf cs := by
  have hle := lstrip_length_le cs
  simp only [indentOf, lstrip_cons_ws cs h, List.length_cons]
  rw [Nat.succ_sub hle]
  simp

theorem indentOf_cons_not_ws {c : Char} (cs : Line) (h : isSpaceChar c = false) :
    indentOf (c :: cs) = [] := by
  simp [indentOf, lstrip_cons_not_ws cs h]

theorem indentOf_append_lstrip (l : Line) : indentOf l ++ lstrip l = l := by
  induction l with
  | nil => simp [indentOf, lstrip]
  | cons c cs ih =>
    by_cases h : isSpaceChar c = true
    · rw [indentOf_cons_ws cs h, lstrip_cons_ws cs h]
      simpa using ih
    · have h' : isSpaceChar c = false := by simpa using h
      rw [indentOf_cons_not_ws cs h', lstrip_cons_not_ws cs h']
      simp

theorem indentOf_all_ws (l : Line) : ∀ c ∈ indentOf l, isSpaceChar c = true := by
  induction l with
  | nil => simp [indentOf, lstrip]
  | cons c cs ih =>
    by_cases h : isSpaceChar c = true
    · rw [indentOf_cons_ws cs h]
      intro d hd
      rcases List.mem_cons.mp hd with rfl | hd
      · exact h
      · exact ih d hd
    · have h' : isSpaceChar c = false := by simpa using h
      rw [indentOf_cons_not_ws cs h']
      simp

theorem lstrip_ws_append {ind : Line} (X : Line)
    (h : ∀ c ∈ ind, isSpaceChar c = true) :
    lstrip (ind ++ X) = lstrip X := by
  induction ind with
  | nil => simp
  | cons c cs ih =>
    have hc : isSpaceChar c = true := h c (List.mem_cons_self c cs)
    simp only [List.cons_append, lstrip_cons_ws _ hc]
    exact ih (fun d hd => h d (List.mem_cons_of_mem c hd))

/-- No occurrence of a pattern whose first character is not whitespace can
start inside an all-whitespace slice. -/
theorem matchStep_ws_none {c : Char} {p : Char} {ps rest : Line}
    (hc : isSpaceChar c = true) (hp : isSpaceChar p = false) :
    matchStep (c :: rest) (p :: ps) = none := by
  have : c ≠ p := by
    intro h; subst h; simp [hc] at hp
  simp [matchStep, this]

theorem containsSub_ws_append {ind : Line} {p : Char} {ps : Line} (X : Line)
    (hind : ∀ c ∈ ind, isSpaceChar c = true) (hp : isSpaceChar p = false) :
    containsSub (ind ++ X) (p :: ps) = containsSub X (p :: ps) := by
  induction ind with
  | nil => simp
  | cons c cs ih =>
    have hc : isSpaceChar c = true := hind c (List.mem_cons_self c cs)
    simp only [List.cons_append, containsSub, startsWith,
      matchStep_ws_none hc hp, Option.isSome_none, Bool.false_or]
    exact ih (fun d hd => hind d (List.mem_cons_of_mem c hd))

theorem replaceAll_ws_append {ind : Line} {p : Char} {ps rep : Line} (X : Line)
    (hind : ∀ c ∈ ind, isSpaceChar c = true) (hp : isSpaceChar p = false) :
    replaceAll (p :: ps) rep (ind ++ X) = ind ++ replaceAll (p :: ps) rep X := by
  induction ind with
  | nil => simp
  | cons c cs ih =>
    have hc : isSpaceChar c = true := hind c (List.mem_cons_self c cs)
    have hrest : ∀ d ∈ cs, isSpaceChar d = true :=
      fun d hd => hind d (List.mem_cons_of_mem c hd)
    simp only [replaceAll, List.cons_append, List.length_cons, replaceFuel,
      matchStep_ws_none hc hp]
    have hrec := ih hrest
    simp only [replaceAll] at hrec
    exact congrArg (List.cons c) hrec

/- Lemmas about splitOnEq. -/

theorem splitOnEq_ne_nil (l : Line) : splitOnEq l ≠ [] := by
  cases l with
  | nil => simp [splitOnEq]
  | cons c cs =>
    simp only [splitOnEq]
    by_cases h : c = '='
    · simp [h]
    · simp only [if_neg h]
      cases splitOnEq cs <;> simp

theorem splitOnEq_no_eq {l : Line} (h : ∀ c ∈ l, c ≠ '=') :
    splitOnEq l = [l] := by
  induction l with
  | nil => rfl
  | cons c cs ih =>
    have hc : c ≠ '=' := h c (List.mem_cons_self c cs)
    have ih' := ih (fun d hd => h d (List.mem_cons_of_mem c hd))
    simp [splitOnEq, hc, ih']

theorem splitOnEq_get1_none {l : Line} (h : ∀ c ∈ l, c ≠ '=') :
    (splitOnEq l)[1]? = none := by
  rw [splitOnEq_no_eq h]; rfl

/-- When no rule fires, the line is copied unchanged. -/
theorem rewriteLine_not_fired {l l' : Line}
    (h : rewriteLine l = some (l', false)) : l' = l := by
  unfold rewriteLine at h
  split_ifs at h <;> first | (split at h <;> simp_all) | simp_all

/- Lemmas about processLines and the main loop. -/

theorem processLines_cons {l : Line} {rest : List Line} :
    processLines (l :: rest) =
      match rewriteLine l with
      | none => none
      | some (l', fired) =>
        match processLines rest with
        | none => none
        | some (out, n) => some (l' :: out, (if fired then 1 else 0) + n) := rfl

theorem processLines_spec {ls out : List Line} {n : Nat}
    (h : processLines ls = some (out, n)) :
    out.length = ls.length ∧ n = firedCount ls ∧ diffCount ls out ≤ n := by
  induction ls generalizing out n with
  | nil =>
    simp only [processLines, Option.some_inj] at h
    obtain ⟨rfl, rfl⟩ : ([] : List Line) = out ∧ 0 = n := by
      constructor <;> [exact congrArg Prod.fst h; exact congrArg Prod.snd h]
    simp [firedCount, diffCount]
  | cons l rest ih =>
    rw [processLines_cons] at h
    cases hr : rewriteLine l with
    | none => rw [hr] at h; simp at h
    | some p =>
      obtain ⟨l', fired⟩ := p
      rw [hr] at h
      cases hrest : processLines rest with
      | none => rw [hrest] at h; simp at h
      | some q =>
        obtain ⟨out', n'⟩ := q
        rw [hrest] at h
        simp only [Option.some_inj, Prod.mk.injEq] at h
        obtain ⟨hout, hn⟩ := h
        obtain ⟨hlen, hcount, hdiff⟩ := ih hrest
        subst hout hn
        refine ⟨by simp [hlen], ?_, ?_⟩
        · cases fired with
          | true =>
            simp only [firedCount, List.foldr_cons, hr, if_true]
            have : n' = firedCount rest := hcount
            simp [firedCount] at this
            omega
          | false => simpa [firedCount, hr] using hcount
        · cases fired with
          | true =>
            simp only [diffCount, if_true]
            have : (if l = l' then 0 else 1) ≤ 1 := by split <;> simp
            omega
          | false =>
            have : l' = l := rewriteLine_not_fired hr
            subst this
            simpa [diffCount] using hdiff

theorem processLines_mem_none {ls : List Line} {l : Line}
    (hmem : l ∈ ls) (hbad : rewriteLine l = none) :
    processLines ls = none := by
  induction ls with
  | nil => simp at hmem
  | cons a rest ih =>
    rcases List.mem_cons.mp hmem with rfl | hmem'
    · rw [processLines_cons, hbad]
    · rw [processLines_cons]
      cases hr : rewriteLine a with
      | none => rfl
      | some p => obtain ⟨a', fired⟩ := p; rw [ih hmem']

theorem stepFile_contrib (acc : Nat × Nat) (f : List Line × Bool) :
    stepFile acc f = (acc.1 + (contrib f).1, acc.2 + (contrib f).2) := by
  obtain ⟨ls, access⟩ := f
  cases access with
  | false => simp [stepFile, contrib]
  | true =>
    simp only [stepFile, contrib, process_file]
    cases hp : processLines ls with
    | none => simp
    | some q =>
      obtain ⟨out, n⟩ := q
      by_cases hn : 0 < n
      · have h1 : ¬((n : Int) = -1) := by omega
        have h2 : (0 : Int) < (n : Int) := by exact_mod_cast hn
        simp [hn, h1, h2]
      · have hn0 : n = 0 := by omega
        subst hn0
        simp

theorem foldl_stepFile (files : List (List Line × Bool)) :
    ∀ a b : Nat, files.foldl stepFile (a, b) =
      (a + (files.map (fun f => (contrib f).1)).sum,
       b + (files.map (fun f => (contrib f).2)).sum) := by
  induction files with
  | nil => intro a b; simp
  | cons f rest ih =>
    intro a b
    rw [List.foldl_cons, stepFile_contrib (a, b) f, ih]
    simp [Nat.add_assoc]

/-- Transport of containsSub over an all-whitespace prefix for a pattern
given with an explicit non-whitespace head. -/
theorem containsSub_ws_append_pat {ind X pat : Line}
    (hind : ∀ c ∈ ind, isSpaceChar c = true)
    (hp : ∃ p ps, pat = p :: ps ∧ isSpaceChar p = false) :
    containsSub (ind ++ X) pat = containsSub X pat := by
  obtain ⟨p, ps, rfl, hp⟩ := hp
  exact containsSub_ws_append X hind hp

theorem replaceAll_ws_append_pat {ind X pat rep : Line}
    (hind : ∀ c ∈ ind, isSpaceChar c = true)
    (hp : ∃ p ps, pat = p :: ps ∧ isSpaceChar p = false) :
    replaceAll pat rep (ind ++ X) = ind ++ replaceAll pat rep X := by
  obtain ⟨p, ps, rfl, hp⟩ := hp
  exact replaceAll_ws_append X hind hp

/- Concrete example lines used by witnesses and counterexamples. -/

def hostRuleLine : Line :=
  "      - \"traefik.http.routers.app.rule=Host(`app.example.com`)\"\n".toList

def hostAndEnableLine : Line :=
  "- traefik.http.routers.app.rule=Host(`a`) traefik.enable=true\n".toList

def commentedEnableTail : Line := "# - traefik.enable=true".toList

def commentedEnableOut : Line := "# - lostack.enable=true".toList

/-- Claim C7: a line containing the host-rule marker whose stripped form
is not already commented is replaced by its leading whitespace, a hash
mark, a single space, and the whitespace-stripped original content (which
still carries the original text and terminator verbatim), and the line is
counted as one change.  The second conjunct records that the leading
whitespace plus the stripped content reassemble the original line. -/
theorem rule1_comments_line (line : Line)
    (h1 : containsSub line patRule = true)
    (h2 : startsWith (strip line) patHash = false) :
    rewriteLine line = some (indentOf line ++ ('#' :: ' ' :: lstrip line), true) ∧
    indentOf line ++ lstrip line = line := by
  refine ⟨?_, indentOf_append_lstrip line⟩
  simp [rewriteLine, h1, h2]

/-- Witness for rule1_comments_line at the scenario-A line. -/
theorem rule1_comments_line_witness :
    containsSub hostRuleLine patRule = true ∧
    startsWith (strip hostRuleLine) patHash = false ∧
    rewriteLine hostRuleLine =
      some (indentOf hostRuleLine ++ ('#' :: ' ' :: lstrip hostRuleLine), true) ∧
    indentOf hostRuleLine ++ lstrip hostRuleLine = hostRuleLine :=
  ⟨by decide, by decide, rule1_comments_line hostRuleLine (by decide) (by decide)⟩

/-- Claim C5: the chain applies at most one transformation per line, and
the lowest-numbered applicable rule wins.  When a line triggers rule 1
(uncommented host-rule marker) and also contains the rule-2 substring,
the output is exactly the rule-1 commented form, and the rule-2 trigger
substring survives in it untouched: no substitution from a later rule was
applied. -/
theorem priority_first_match_wins (line : Line)
    (h1 : containsSub line patRule = true)
    (h2 : startsWith (strip line) patHash = false)
    (h3 : containsSub line patTraefikEnable = true) :
    rewriteLine line = some (indentOf line ++ ('#' :: ' ' :: lstrip line), true) ∧
    containsSub (indentOf line ++ ('#' :: ' ' :: lstrip line)) patTraefikEnable
      = true := by
  refine ⟨by simp [rewriteLine, h1, h2], ?_⟩
  have hdecomp := indentOf_append_lstrip line
  have hind := indentOf_all_ws line
  have h3' : containsSub (lstrip line) patTraefikEnable = true := by
    have heq : containsSub (indentOf line ++ lstrip line) patTraefikEnable
        = containsSub (lstrip line) patTraefikEnable :=
      containsSub_ws_append_pat hind
        ⟨'t', "raefik.enable=true".toList, by decide, by decide⟩
    rw [hdecomp] at heq
    rw [← heq]; exact h3
  have hmid : containsSub ('#' :: ' ' :: lstrip line) patTraefikEnable = true := by
    have : containsSub (['#', ' '] ++ lstrip line) patTraefikEnable = true :=
      containsSub_append_left ['#', ' '] h3'
    simpa using this
  exact containsSub_append_left (indentOf line) hmid

/-- Witness for priority_first_match_wins at a line containing both the
host-rule marker and the rule-2 substring. -/
theorem priority_first_match_wins_witness :
    rewriteLine hostAndEnableLine =
      some (indentOf hostAndEnableLine ++ ('#' :: ' ' :: lstrip hostAndEnableLine),
        true) ∧
    containsSub
      (indentOf hostAndEnableLine ++ ('#' :: ' ' :: lstrip hostAndEnableLine))
      patTraefikEnable = true :=
  priority_first_match_wins hostAndEnableLine (by decide) (by decide) (by decide)

/-- Claim C9: the not-already-commented guard belongs to rule 1 only; a
commented line is still subject to rules 2 to 8.  For every whitespace
indentation, the comment line indent ++ "# - traefik.enable=true" is
rewritten by rule 2 to indent ++ "# - lostack.enable=true" and counted as
a changed line. -/
theorem comment_guard_only_rule1 (ind : Line)
    (hind : ∀ c ∈ ind, isSpaceChar c = true) :
    rewriteLine (ind ++ commentedEnableTail) =
      some (ind ++ commentedEnableOut, true) := by
  have hg : containsSub (ind ++ commentedEnableTail) patRule = false := by
    rw [containsSub_ws_append_pat hind
      ⟨'.', "rule=Host(`".toList, by decide, by decide⟩]
    decide
  have h2 : containsSub (ind ++ commentedEnableTail) patTraefikEnable = true := by
    rw [containsSub_ws_append_pat hind
      ⟨'t', "raefik.enable=true".toList, by decide, by decide⟩]
    decide
  have hrep : replaceAll patTraefikEnable repTraefikEnable
      (ind ++ commentedEnableTail) = ind ++ commentedEnableOut := by
    rw [replaceAll_ws_append_pat hind
      ⟨'t', "raefik.enable=true".toList, by decide, by decide⟩]
    have : replaceAll patTraefikEnable repTraefikEnable commentedEnableTail
        = commentedEnableOut := by decide
    rw [this]
  simp [rewriteLine, hg, h2, hrep]

/-- Witness for comment_guard_only_rule1 at a four-space indentation. -/
theorem comment_guard_only_rule1_witness :
    rewriteLine ((' ' :: ' ' :: ' ' :: ' ' :: []) ++ commentedEnableTail) =
      some ((' ' :: ' ' :: ' ' :: ' ' :: []) ++ commentedEnableOut, true) :=
  comment_guard_only_rule1 (' ' :: ' ' :: ' ' :: ' ' :: []) (by decide)

def equalsInValueLine : Line := "- server.port=\"8080=x\"\n".toList

def portIdentityLine : Line := "- lostack.port=8080\n".toList

def plainLine : Line := "services:\n".toList

/-- Claim C2 counterexample: on the line - server.port="8080=x" the value
written by the script is the text between the FIRST and SECOND equals
signs, not the entire text after the first equals sign as the claim
states.  The script produces - lostack.port="8080, while the claimed
split-on-first-occurrence semantics would produce - lostack.port="8080=x". -/
theorem rule5_split_first_cx :
    rewriteLine equalsInValueLine =
      some (("- lostack.port=\"8080\n").toList, true) ∧
    specValueAfterFirstEq equalsInValueLine = some (("\"8080=x\"\n").toList) ∧
    (("- lostack.port=\"8080\n").toList : Line) ≠
      indentOf equalsInValueLine ++ portLabel ++
        strip (("\"8080=x\"\n").toList) ++ ['\n'] :=
  ⟨by decide, by decide, by decide⟩

/-- Claim C2 as amended: for a line handled by rule 5 or rule 8 the value
placed into the replacement line is element 1 of the split of the line on
EVERY equals sign, that is, the text strictly between the first and second
equals signs (for a line with exactly one equals sign this is everything
after it), trimmed of surrounding whitespace, and for rule 8 additionally
with double-quote characters removed; the output line is the original
leading whitespace, the list-item label - lostack.port=, the cleaned
value, and a newline. -/
theorem port_value_extraction (line v : Line) :
    ((containsSub line patRule && !(startsWith (strip line) patHash)) = false →
     containsSub line patTraefikEnable = false →
     containsSub line patSablierEnable = false →
     containsSub line patSablierGroup = false →
     containsSub line patServerPort = true →
     (splitOnEq line)[1]? = some v →
     rewriteLine line =
       some (indentOf line ++ portLabel ++ strip v ++ ['\n'], true)) ∧
    ((containsSub line patRule && !(startsWith (strip line) patHash)) = false →
     containsSub line patTraefikEnable = false →
     containsSub line patSablierEnable = false →
     containsSub line patSablierGroup = false →
     containsSub line patServerPort = false →
     containsSub line patDuration = false →
     containsSub line patEnableSablier = false →
     containsSub line patLostackPort = true →
     (splitOnEq line)[1]? = some v →
     rewriteLine line =
       some (indentOf line ++ portLabel ++ replaceAll patQuote [] (strip v)
         ++ ['\n'], true)) := by
  constructor
  · intro hg h2 h3 h4 h5 hv
    simp [rewriteLine, hg, h2, h3, h4, h5, hv]
  · intro hg h2 h3 h4 h5 h6 h7 h8 hv
    simp [rewriteLine, hg, h2, h3, h4, h5, h6, h7, h8, hv]

/-- Witness for port_value_extraction: scenario C (rule 5) and scenario D
(rule 8, quotes stripped). -/
theorem port_value_extraction_witness :
    rewriteLine (("      - server.port=8080\n").toList) =
      some (("      - lostack.port=8080\n").toList, true) ∧
    rewriteLine (("      - lostack.port=\"9090\"\n").toList) =
      some (("      - lostack.port=9090\n").toList, true) := by
  constructor
  · have h := (port_value_extraction (("      - server.port=8080\n").toList)
      (("8080\n").toList)).1 (by decide) (by decide) (by decide) (by decide)
      (by decide) (by decide)
    exact h.trans (by decide)
  · have h := (port_value_extraction (("      - lostack.port=\"9090\"\n").toList)
      (("\"9090\"\n").toList)).2 (by decide) (by decide) (by decide) (by decide)
      (by decide) (by decide) (by decide) (by decide) (by decide)
    exact h.trans (by decide)

/-- Claim C3 counterexample: on the line - lostack.port=8080 rule 8
reproduces the line verbatim yet the counter reports one changed line,
so the returned integer is not the number of positions at which the
output differs from the input (which is zero here). -/
theorem count_not_diff_cx :
    processLines [portIdentityLine] = some ([portIdentityLine], 1) ∧
    diffCount [portIdentityLine] [portIdentityLine] = 0 :=
  ⟨by decide, by decide⟩

/-- Claim C3 as amended: the integer returned by the Line Rewriter counts
the lines on which one of the eight rules fired; lines copied unchanged
by the fall-through branch are never counted, so the count is an upper
bound on the number of positions at which the output differs from the
input, but a counted line may be identical to its original (rule 8 can
regenerate a line verbatim), so equality does not hold in general. -/
theorem count_fired_upper_bound (ls out : List Line) (n : Nat)
    (h : processLines ls = some (out, n)) :
    n = firedCount ls ∧ diffCount ls out ≤ n :=
  ⟨(processLines_spec h).2.1, (processLines_spec h).2.2⟩

/-- Witness for count_fired_upper_bound at the rule-8 identity line. -/
theorem count_fired_upper_bound_witness :
    1 = firedCount [portIdentityLine] ∧
    diffCount [portIdentityLine] [portIdentityLine] ≤ 1 :=
  count_fired_upper_bound [portIdentityLine] [portIdentityLine] 1 (by decide)

/-- Claim C4 counterexample: for the one-line file - lostack.port=8080
the rewriter reports one changed line although the output equals the
input, so process_file rewrites the file (updating its modification
time) even though no line was changed from its original content: the
claimed equivalence between overwriting and changed content fails. -/
theorem write_on_identical_content_cx :
    processLines [portIdentityLine] = some ([portIdentityLine], 1) ∧
    (process_file [portIdentityLine]).written = true ∧
    (process_file [portIdentityLine]).content = [portIdentityLine] :=
  ⟨by decide, by decide, by decide⟩

/-- Claim C4 as amended: the file is overwritten if and only if the
changed-line counter returned by the rewriter is positive; when the
counter is zero, or when processing raised, the on-disk content is left
untouched.  A positive counter does not imply that any line actually
differs, so a file can be rewritten with byte-identical content and a
fresh modification time. -/
theorem write_iff_counter_positive (ls : List Line) :
    ((process_file ls).written = true ↔
      ∃ out n, processLines ls = some (out, n) ∧ 0 < n) ∧
    ((process_file ls).written = false → (process_file ls).content = ls) := by
  unfold process_file
  cases hp : processLines ls with
  | none => simp
  | some q =>
    obtain ⟨out, n⟩ := q
    by_cases hn : 0 < n
    · simp only [if_pos hn]
      exact ⟨⟨fun _ => ⟨out, n, rfl, hn⟩, fun _ => trivial⟩,
        fun hw => absurd hw (by simp)⟩
    · simp only [if_neg hn]
      refine ⟨⟨fun hw => absurd hw (by simp), ?_⟩, fun _ => trivial⟩
      rintro ⟨o, m, hom, hm⟩
      obtain ⟨rfl, rfl⟩ : out = o ∧ n = m := by
        simpa [Prod.ext_iff] using hom
      exact absurd hm hn

/-- Witness for write_iff_counter_positive: a written file with a
positive counter, and an untouched file with counter zero. -/
theorem write_iff_counter_positive_witness :
    (process_file [portIdentityLine]).written = true ∧
    (process_file [plainLine]).content = [plainLine] :=
  ⟨(write_iff_counter_positive [portIdentityLine]).1.mpr
      ⟨[portIdentityLine], 1, by decide, by decide⟩,
   (write_iff_counter_positive [plainLine]).2 (by decide)⟩

/-- Claim C6: the rewriter yields exactly one output line per input line:
on success the output has the same length as the input, and the line at
every position of the output is exactly the rewrite of the line at the
same position of the input, so order is preserved and nothing is
inserted or deleted. -/
theorem one_output_line_per_input (ls out : List Line) (n : Nat)
    (h : processLines ls = some (out, n)) :
    out.length = ls.length ∧
    ∀ i : Nat, out[i]? = (ls[i]?).bind fun l => (rewriteLine l).map Prod.fst := by
  induction ls generalizing out n with
  | nil =>
    simp only [processLines, Option.some_inj] at h
    have hout : out = [] := by simpa using (congrArg Prod.fst h).symm
    subst hout
    simp
  | cons l rest ih =>
    rw [processLines_cons] at h
    cases hr : rewriteLine l with
    | none => rw [hr] at h; simp at h
    | some p =>
      obtain ⟨l', fired⟩ := p
      rw [hr] at h
      cases hrest : processLines rest with
      | none => rw [hrest] at h; simp at h
      | some q =>
        obtain ⟨out', n'⟩ := q
        rw [hrest] at h
        simp only [Option.some_inj, Prod.mk.injEq] at h
        obtain ⟨hout, _⟩ := h
        obtain ⟨hlen, hpos⟩ := ih out' n' hrest
        subst hout
        refine ⟨by simp [hlen], ?_⟩
        intro i
        cases i with
        | zero => simp [hr]
        | succ j => simpa using hpos j

/-- Witness for one_output_line_per_input on a two-line file. -/
theorem one_output_line_per_input_witness :
    ([("      - lostack.enable=true\n").toList, plainLine].length
      = [("      - traefik.enable=true\n").toList, plainLine].length) ∧
    ([("      - lostack.enable=true\n").toList, plainLine][0]? =
      (([("      - traefik.enable=true\n").toList, plainLine][0]?).bind
        fun l => (rewriteLine l).map Prod.fst)) :=
  ⟨(one_output_line_per_input
      [("      - traefik.enable=true\n").toList, plainLine]
      [("      - lostack.enable=true\n").toList, plainLine] 1 (by decide)).1,
   (one_output_line_per_input
      [("      - traefik.enable=true\n").toList, plainLine]
      [("      - lostack.enable=true\n").toList, plainLine] 1 (by decide)).2 0⟩

def sablierEnableLine : Line := "- sablier.enable=true\n".toList

def enableSablierLine : Line := "- lostack.enable_sablier=true\n".toList

def autostartLine : Line := "- lostack.autostart=true\n".toList

def noEqPortLine : Line := "- server.port\n".toList

/-- Claim C1 counterexample: the Line Rewriter is not idempotent.  On the
one-line file - sablier.enable=true a first pass (rule 3) produces
- lostack.enable_sablier=true, and a second pass (rule 7) rewrites that
output again to - lostack.autostart=true, so applying the rewriter twice
yields a different line sequence than applying it once. -/
theorem rewrite_not_idempotent_cx :
    processLines [sablierEnableLine] = some ([enableSablierLine], 1) ∧
    processLines [enableSablierLine] = some ([autostartLine], 1) ∧
    enableSablierLine ≠ autostartLine :=
  ⟨by decide, by decide, by decide⟩

/-- Claim C1 as amended: the Line Rewriter is NOT idempotent.  Whenever
rule 3 fires (the line contains sablier.enable=true and rules 1 and 2 do
not match), the output necessarily contains the rule-7 trigger substring
lostack.enable_sablier, so on a second pass some rule fires again on that
line: the second pass counts it as changed once more (and, when rule 7 is
the one that fires, renames it to lostack.autostart).  Re-running the
program on already-migrated files is therefore not a no-op. -/
theorem rule3_output_refires (line : Line)
    (h1 : (containsSub line patRule && !(startsWith (strip line) patHash)) = false)
    (h2 : containsSub line patTraefikEnable = false)
    (h3 : containsSub line patSablierEnable = true) :
    rewriteLine line = some (replaceAll patSablierEnable repSablierEnable line, true) ∧
    containsSub (replaceAll patSablierEnable repSablierEnable line)
      patEnableSablier = true ∧
    ∀ r, rewriteLine (replaceAll patSablierEnable repSablierEnable line) = some r →
      r.2 = true := by
  have hout : containsSub (replaceAll patSablierEnable repSablierEnable line)
      patEnableSablier = true := by
    obtain ⟨x, y, hxy⟩ :=
      @replaceAll_emits patSablierEnable repSablierEnable line (by decide) h3
    rw [hxy, List.append_assoc]
    refine containsSub_append_left x ?_
    exact containsSub_append_right y (by decide)
  refine ⟨by simp [rewriteLine, h1, h2, h3], hout, ?_⟩
  intro r hr
  unfold rewriteLine at hr
  split_ifs at hr <;>
    first
      | (split at hr <;> first | (cases hr; rfl) | simp_all)
      | (cases hr; rfl)

/-- Witness for rule3_output_refires at the counterexample line. -/
theorem rule3_output_refires_witness :
    rewriteLine sablierEnableLine = some (enableSablierLine, true) ∧
    containsSub enableSablierLine patEnableSablier = true := by
  have h := rule3_output_refires sablierEnableLine (by decide) (by decide) (by decide)
  have hb : replaceAll patSablierEnable repSablierEnable sablierEnableLine
      = enableSablierLine := by decide
  exact ⟨hb ▸ h.1, hb ▸ h.2.1⟩

/-- Claim C8: the process exits with a nonzero status exactly when the
packages root is missing or is not a directory, and in that case the
outcome does not depend on any file (nothing is listed or modified);
otherwise the run exits normally with the summary, in which a file that
is inaccessible, or whose processing raised, contributes zero to the
files-modified and total-lines counters while the remaining files are
still processed and accumulated. -/
theorem exit_status_and_error_handling (fs : FS) :
    (runMain fs = RunResult.fatal 1 ↔
      fs.packagesExists = false ∨ fs.packagesIsDir = false) ∧
    ((fs.packagesExists = false ∨ fs.packagesIsDir = false) →
      ∀ fl, runMain ⟨fs.packagesExists, fs.packagesIsDir, fl⟩
        = RunResult.fatal 1) ∧
    (fs.packagesExists = true → fs.packagesIsDir = true →
      runMain fs = RunResult.ok fs.files.length
        ((fs.files.map fun f => (contrib f).1).sum)
        ((fs.files.map fun f => (contrib f).2).sum)) := by
  obtain ⟨pe, pd, files⟩ := fs
  cases pe with
  | false => simp [runMain]
  | true =>
    cases pd with
    | false => simp [runMain]
    | true =>
      refine ⟨?_, ?_, ?_⟩
      · simp only [runMain]
        rw [foldl_stepFile files 0 0]
        simp
      · intro hor
        rcases hor with h | h <;> simp at h
      · intro _ _
        simp only [runMain]
        rw [foldl_stepFile files 0 0]
        simp

/-- Witness for exit_status_and_error_handling: a missing root is fatal
regardless of the file list, and a run over one file whose processing
raises exits normally with zero modified files and zero lines. -/
theorem exit_status_and_error_handling_witness :
    runMain ⟨false, true, [([noEqPortLine], true)]⟩ = RunResult.fatal 1 ∧
    runMain ⟨true, true, [([noEqPortLine], true)]⟩ = RunResult.ok 1 0 0 :=
  ⟨(exit_status_and_error_handling ⟨false, true, [([noEqPortLine], true)]⟩).2.1
      (Or.inl rfl) [([noEqPortLine], true)],
   ((exit_status_and_error_handling ⟨true, true, [([noEqPortLine], true)]⟩).2.2
      rfl rfl).trans (by decide)⟩

/-- Claim C10: a line that triggers rule 5 (or rule 8) but contains no
equals sign makes value extraction fail, and the failure is per-file
atomic: the whole file is aborted, nothing is written so the on-disk
content is unchanged, the error result -1 is returned, and in main the
file contributes zero to the files-modified and total-lines counters
while the run still exits normally. -/
theorem parse_failure_file_atomic (ls : List Line) (l : Line)
    (hmem : l ∈ ls)
    (hnoeq : ∀ c ∈ l, c ≠ '=')
    (hcase :
      (containsSub l patServerPort = true ∧
       (containsSub l patRule && !(startsWith (strip l) patHash)) = false ∧
       containsSub l patTraefikEnable = false ∧
       containsSub l patSablierEnable = false ∧
       containsSub l patSablierGroup = false) ∨
      (containsSub l patLostackPort = true ∧
       (containsSub l patRule && !(startsWith (strip l) patHash)) = false ∧
       containsSub l patTraefikEnable = false ∧
       containsSub l patSablierEnable = false ∧
       containsSub l patSablierGroup = false ∧
       containsSub l patServerPort = false ∧
       containsSub l patDuration = false ∧
       containsSub l patEnableSablier = false)) :
    processLines ls = none ∧
    process_file ls = ⟨ls, false, -1⟩ ∧
    runMain ⟨true, true, [(ls, true)]⟩ = RunResult.ok 1 0 0 := by
  have hget := splitOnEq_get1_none hnoeq
  have hbad : rewriteLine l = none := by
    rcases hcase with ⟨h5, hg, h2, h3, h4⟩ | ⟨h8, hg, h2, h3, h4, h5, h6, h7⟩
    · simp [rewriteLine, hg, h2, h3, h4, h5, hget]
    · simp [rewriteLine, hg, h2, h3, h4, h5, h6, h7, h8, hget]
  have hpl := processLines_mem_none hmem hbad
  have hpf : process_file ls = ⟨ls, false, -1⟩ := by
    simp [process_file, hpl]
  refine ⟨hpl, hpf, ?_⟩
  simp only [runMain, List.foldl]
  rw [stepFile_contrib (0, 0) (ls, true)]
  simp [contrib, hpl]

/-- Witness for parse_failure_file_atomic at the one-line file
- server.port with no equals sign. -/
theorem parse_failure_file_atomic_witness :
    processLines [noEqPortLine] = none ∧
    process_file [noEqPortLine] = ⟨[noEqPortLine], false, -1⟩ ∧
    runMain ⟨true, true, [([noEqPortLine], true)]⟩ = RunResult.ok 1 0 0 :=
  parse_failure_file_atomic [noEqPortLine] noEqPortLine (by decide) (by decide)
    (by decide)

end Depot
